import Mathlib

/-!
Verification development for the Pinta365/steganography library.

The TypeScript sources are shallowly embedded: byte buffers (`Uint8Array`)
become `List Nat` whose entries are bytes, JavaScript strings become
`List Nat` of Unicode code points, and functions that `throw` return
`Except String`.  JavaScript `Math.floor` division on non-negative numbers
is Lean `Nat` division.  External host collaborators (the deflate
compression streams and the WebCrypto AES primitives) are taken as
function parameters, constrained only by the round-trip contracts the
specification assigns to them; everything else is translated directly
from the repository sources.
-/

namespace Stega

/-! ## Bit/byte marshalling (src common module, `bytesToBits` / `bitsToBytes`)

`bytesToBits` turns each byte into 8 bits, least-significant first:
`bits[i*8+j] = (byte >> j) & 1`, rendered as `b / 2^j % 2`.
`bitsToBytes` reassembles 8 bits at a time (`byte |= (bit & 1) << j`),
dropping a trailing partial byte (`byteCount = floor(len / 8)`). -/

def bytesToBits (bytes : List Nat) : List Nat :=
  bytes.foldr (fun b acc =>
    [b % 2, b / 2 % 2, b / 4 % 2, b / 8 % 2,
     b / 16 % 2, b / 32 % 2, b / 64 % 2, b / 128 % 2] ++ acc) []

def bitsToBytes : List Nat → List Nat
  | b0 :: b1 :: b2 :: b3 :: b4 :: b5 :: b6 :: b7 :: rest =>
      (b0 % 2 + 2 * (b1 % 2) + 4 * (b2 % 2) + 8 * (b3 % 2) + 16 * (b4 % 2)
        + 32 * (b5 % 2) + 64 * (b6 % 2) + 128 * (b7 % 2)) :: bitsToBytes rest
  | _ => []

theorem byte_reassemble (b : Nat) (hb : b < 256) :
    b % 2 + 2 * (b / 2 % 2) + 4 * (b / 4 % 2) + 8 * (b / 8 % 2) + 16 * (b / 16 % 2)
      + 32 * (b / 32 % 2) + 64 * (b / 64 % 2) + 128 * (b / 128 % 2) = b := by
  omega

/-- C7: for every byte sequence x (entries below 256, as `Uint8Array` guarantees),
`bitsToBytes (bytesToBits x) = x`: the LSB-first bit expansion round-trips. -/
theorem claim_C7_bits_bytes_roundtrip (x : List Nat) (hx : ∀ b ∈ x, b < 256) :
    bitsToBytes (bytesToBits x) = x := by
  induction x with
  | nil => rfl
  | cons b rest ih =>
    have hb : b < 256 := hx b (List.mem_cons_self b rest)
    have hrest : ∀ c ∈ rest, c < 256 := fun c hc => hx c (List.mem_cons_of_mem b hc)
    simp only [bytesToBits, List.foldr_cons, List.cons_append, List.nil_append]
    show bitsToBytes (b % 2 :: b / 2 % 2 :: b / 4 % 2 :: b / 8 % 2 :: b / 16 % 2
      :: b / 32 % 2 :: b / 64 % 2 :: b / 128 % 2 :: bytesToBits rest) = b :: rest
    rw [bitsToBytes]
    congr 1
    · omega
    · exact ih hrest

/-- Witness for C7 at a concrete byte sequence. -/
theorem claim_C7_witness : bitsToBytes (bytesToBits [0, 1, 171, 255]) = [0, 1, 171, 255] :=
  claim_C7_bits_bytes_roundtrip [0, 1, 171, 255] (by decide)

/-! ## ZWC text capacity (text module, `calculateTextCapacity`)

The source computes `Math.floor(coverText.length * 0.1)` with IEEE doubles;
for every length the float estimate is at most the length itself, so the
subsequent `Math.max(estimatedZWC, coverText.length)` always returns the
length and the float rounding never reaches the result.  The estimate is
rendered as `length / 10`.  `Math.max(0, availableZWC - 26)` is truncated
`Nat` subtraction. -/

def calculateTextCapacity (coverText : List Nat) : Nat :=
  let estimatedZWC := coverText.length / 10
  let availableZWC := max estimatedZWC coverText.length
  let payloadZWC := availableZWC - 26
  payloadZWC / 4

/-- C6: `calculateTextCapacity c` equals `(max (|c|/10) |c| - 26) / 4` (integer
arithmetic, subtraction truncated at zero), and for non-empty covers this is
`(|c| - 26) / 4` bytes, because the 10 percent estimate never exceeds `|c|`. -/
theorem claim_C6_text_capacity (c : List Nat) :
    calculateTextCapacity c = (max (c.length / 10) c.length - 26) / 4 ∧
      (c ≠ [] → calculateTextCapacity c = (c.length - 26) / 4) := by
  constructor
  · rfl
  · intro _
    have h : max (c.length / 10) c.length = c.length :=
      max_eq_right (Nat.div_le_self _ _)
    simp only [calculateTextCapacity, h]

/-- Witness for C6 at a concrete cover of 30 code points. -/
theorem claim_C6_witness :
    List.replicate 30 (97 : Nat) ≠ [] ∧
      calculateTextCapacity (List.replicate 30 97) = (30 - 26) / 4 :=
  ⟨by decide, by
    have h := (claim_C6_text_capacity (List.replicate 30 97)).2 (by decide)
    simpa using h⟩

/-! ## Pixel LSB engine (image module, `embedLSB` / `extractLSB`)

`embedLSB` copies the buffer, then walks bytes in order, skipping every
fourth byte (`i % 4 === 3`, the alpha channel); at each visited byte it
overwrites the low `bitDepth` bits with the next message bits
(`result[i] = (result[i] & (0xFF << bitDepth)) | bitsToEmbed`).  For a byte
`b < 256` the mask step is `b / 2^d * 2^d`.  The loop stops as soon as the
message is exhausted, leaving the copied suffix untouched.
`maxBits = Math.floor((len / 4) * 3) * bitDepth` is `3 * len / 4 * d`. -/

def bitsVal : List Nat → Nat
  | [] => 0
  | b :: rest => b % 2 + 2 * bitsVal rest

def embedLoop (bitDepth : Nat) : List Nat → Nat → List Nat → List Nat
  | [], _, _ => []
  | b :: rest, i, bits =>
    if bits.isEmpty then b :: rest
    else if i % 4 = 3 then b :: embedLoop bitDepth rest (i + 1) bits
    else (b / 2 ^ bitDepth * 2 ^ bitDepth + bitsVal (bits.take bitDepth))
        :: embedLoop bitDepth rest (i + 1) (bits.drop bitDepth)

def embedLSB (imageData messageBits : List Nat) (bitDepth : Nat) : Except String (List Nat) :=
  if bitDepth < 1 ∨ 4 < bitDepth then
    .error "invalid bit depth"
  else
    let maxBits := 3 * imageData.length / 4 * bitDepth
    if messageBits.length > maxBits then
      .error "message too large for image capacity"
    else
      .ok (embedLoop bitDepth imageData 0 messageBits)

/-- C3: for an RGBA buffer (length divisible by 4) and bit depth 1..4, `embedLSB`
fails with the capacity error exactly when the bit stream is longer than
`(len / 4) * 3 * d` bits, and a stream at most that bound (so also exactly at
capacity) embeds successfully. -/
theorem claim_C3_capacity (data bits : List Nat) (d : Nat)
    (hd1 : 1 ≤ d) (hd4 : d ≤ 4) (hlen : data.length % 4 = 0) :
    (data.length / 4 * 3 * d < bits.length →
        embedLSB data bits d = .error "message too large for image capacity") ∧
      (bits.length ≤ data.length / 4 * 3 * d →
        embedLSB data bits d = .ok (embedLoop d data 0 bits)) := by
  have hq : 3 * data.length / 4 = data.length / 4 * 3 := by omega
  have hcap : 3 * data.length / 4 * d = data.length / 4 * 3 * d := by rw [hq]
  constructor
  · intro h
    simp only [embedLSB]
    rw [if_neg (by omega), if_pos (by omega)]
  · intro h
    simp only [embedLSB]
    rw [if_neg (by omega), if_neg (by omega)]

/-- Witness for C3: an 8-byte buffer at depth 1 holds exactly 6 bits; 6 bits
succeed and 7 bits fail with the capacity error. -/
theorem claim_C3_witness :
    embedLSB [8, 8, 8, 8, 8, 8, 8, 8] [1, 1, 1, 1, 1, 1] 1
        = .ok (embedLoop 1 [8, 8, 8, 8, 8, 8, 8, 8] 0 [1, 1, 1, 1, 1, 1]) ∧
      embedLSB [8, 8, 8, 8, 8, 8, 8, 8] [1, 1, 1, 1, 1, 1, 1] 1
        = .error "message too large for image capacity" :=
  ⟨(claim_C3_capacity [8, 8, 8, 8, 8, 8, 8, 8] [1, 1, 1, 1, 1, 1] 1
      (by decide) (by decide) (by decide)).2 (by decide),
   (claim_C3_capacity [8, 8, 8, 8, 8, 8, 8, 8] [1, 1, 1, 1, 1, 1, 1] 1
      (by decide) (by decide) (by decide)).1 (by decide)⟩

theorem embedLoop_length (d : Nat) (data : List Nat) (i : Nat) (bits : List Nat) :
    (embedLoop d data i bits).length = data.length := by
  induction data generalizing i bits with
  | nil => rfl
  | cons b rest ih =>
    rw [embedLoop]
    by_cases hb : bits.isEmpty
    · rw [if_pos hb]
    · rw [if_neg hb]
      by_cases hi : i % 4 = 3
      · rw [if_pos hi]; simp [ih]
      · rw [if_neg hi]; simp [ih]

def nonAlphaCount (i : Nat) : Nat → Nat
  | 0 => 0
  | k + 1 => nonAlphaCount i k + (if (i + k) % 4 = 3 then 0 else 1)

theorem nonAlphaCount_eq (i k : Nat) :
    nonAlphaCount i k = ((List.range k).filter (fun j => (i + j) % 4 ≠ 3)).length := by
  induction k with
  | zero => rfl
  | succ k ih =>
    rw [List.range_succ, List.filter_append, List.length_append, nonAlphaCount, ih]
    by_cases hk : (i + k) % 4 = 3
    · rw [if_pos hk]
      simp [hk]
    · rw [if_neg hk]
      simp [hk]

theorem nonAlphaCount_succ_front (i k : Nat) :
    nonAlphaCount i (k + 1) = (if i % 4 = 3 then 0 else 1) + nonAlphaCount (i + 1) k := by
  induction k with
  | zero =>
    show nonAlphaCount i 0 + (if (i + 0) % 4 = 3 then 0 else 1) = _
    rw [Nat.add_zero]
    show 0 + (if i % 4 = 3 then 0 else 1) = (if i % 4 = 3 then 0 else 1) + nonAlphaCount (i + 1) 0
    show 0 + (if i % 4 = 3 then 0 else 1) = (if i % 4 = 3 then 0 else 1) + 0
    omega
  | succ k ih =>
    show nonAlphaCount i (k + 1) + (if (i + (k + 1)) % 4 = 3 then 0 else 1) = _
    rw [ih]
    have h1 : i + (k + 1) = i + 1 + k := by omega
    rw [h1]
    show _ = (if i % 4 = 3 then 0 else 1) + (nonAlphaCount (i + 1) k + _)
    omega

theorem embedLoop_getD (d : Nat) (data : List Nat) (i : Nat) (bits : List Nat) (k : Nat)
    (h : (i + k) % 4 = 3 ∨ bits.length ≤ d * nonAlphaCount i k) :
    (embedLoop d data i bits).getD k 0 = data.getD k 0 := by
  induction data generalizing i bits k with
  | nil => rfl
  | cons b rest ih =>
    rw [embedLoop]
    by_cases hb : bits.isEmpty
    · rw [if_pos hb]
    · rw [if_neg hb]
      have hbits : bits.length ≠ 0 := by
        cases bits with
        | nil => exact absurd rfl hb
        | cons x xs => simp
      by_cases hi : i % 4 = 3
      · rw [if_pos hi]
        cases k with
        | zero => rfl
        | succ k' =>
          simp only [List.getD_cons_succ]
          apply ih
          rcases h with h | h
          · left; omega
          · right
            rw [nonAlphaCount_succ_front, if_pos hi, Nat.zero_add] at h
            exact h
      · rw [if_neg hi]
        cases k with
        | zero =>
          rcases h with h | h
          · omega
          · exfalso
            simp only [nonAlphaCount, Nat.mul_zero, Nat.le_zero] at h
            exact hbits h
        | succ k' =>
          simp only [List.getD_cons_succ]
          apply ih
          rcases h with h | h
          · left; omega
          · right
            rw [nonAlphaCount_succ_front, if_neg hi] at h
            have hm : d * (1 + nonAlphaCount (i + 1) k') = d + d * nonAlphaCount (i + 1) k' := by
              ring
            have hdrop : (bits.drop d).length = bits.length - d := List.length_drop d bits
            omega

theorem embedLSB_ok_eq (data bits : List Nat) (d : Nat) (out : List Nat)
    (h : embedLSB data bits d = .ok out) : out = embedLoop d data 0 bits := by
  simp only [embedLSB] at h
  by_cases h1 : d < 1 ∨ 4 < d
  · rw [if_pos h1] at h; exact absurd h (by simp)
  · rw [if_neg h1] at h
    by_cases h2 : bits.length > 3 * data.length / 4 * d
    · rw [if_pos h2] at h; exact absurd h (by simp)
    · rw [if_neg h2] at h
      exact (Except.ok.inj h).symm

/-- C4: whenever `embedLSB` succeeds, the output has the same length as the
input and agrees with it at every byte index congruent to 3 mod 4: the alpha
channel is never modified. -/
theorem claim_C4_alpha_untouched (data bits out : List Nat) (d : Nat)
    (h : embedLSB data bits d = .ok out) :
    out.length = data.length ∧ ∀ k, k % 4 = 3 → out.getD k 0 = data.getD k 0 := by
  have hout := embedLSB_ok_eq data bits d out h
  subst hout
  refine ⟨embedLoop_length d data 0 bits, fun k hk => ?_⟩
  exact embedLoop_getD d data 0 bits k (Or.inl (by omega))

/-- Witness for C4 at a concrete buffer: embedding two bits into `[8,9,10,11]`
yields `[9,9,10,11]`, whose alpha byte (index 3) still equals 11. -/
theorem claim_C4_witness :
    embedLSB [8, 9, 10, 11] [1, 1] 1 = .ok [9, 9, 10, 11] ∧
      ([9, 9, 10, 11] : List Nat).getD 3 0 = ([8, 9, 10, 11] : List Nat).getD 3 0 :=
  ⟨rfl,
   (claim_C4_alpha_untouched [8, 9, 10, 11] [1, 1] [9, 9, 10, 11] 1 rfl).2 3 (by decide)⟩

/-- C8: the model of `embedLSB` is a pure function of its input (the source
allocates `new Uint8Array(imageData)` and never writes the argument), and every
output byte that is not visited for embedding — the alpha bytes, and every byte
reached after the message bits ran out — equals the corresponding input byte. -/
theorem claim_C8_frame_effect (data bits out : List Nat) (d : Nat)
    (h : embedLSB data bits d = .ok out) :
    out.length = data.length ∧
      ∀ k, (k % 4 = 3 ∨
          bits.length ≤ d * ((List.range k).filter (fun j => j % 4 ≠ 3)).length) →
        out.getD k 0 = data.getD k 0 := by
  have hout := embedLSB_ok_eq data bits d out h
  subst hout
  refine ⟨embedLoop_length d data 0 bits, fun k hk => ?_⟩
  apply embedLoop_getD
  rcases hk with hk | hk
  · left; omega
  · right
    rw [nonAlphaCount_eq]
    have hpred : ((List.range k).filter (fun j => (0 + j) % 4 ≠ 3)).length
        = ((List.range k).filter (fun j => j % 4 ≠ 3)).length := by
      congr 1
      apply List.filter_congr
      intro j _
      simp only [decide_eq_decide]
      omega
    rw [hpred]
    exact hk


/-- Witness for C8 at a concrete buffer: with two message bits at depth 1, byte
index 2 (a non-alpha byte reached after the bits ran out) is unchanged. -/
theorem claim_C8_witness :
    embedLSB [8, 9, 10, 11] [1, 1] 1 = .ok [9, 9, 10, 11] ∧
      ([9, 9, 10, 11] : List Nat).getD 2 0 = ([8, 9, 10, 11] : List Nat).getD 2 0 :=
  ⟨rfl,
   (claim_C8_frame_effect [8, 9, 10, 11] [1, 1] [9, 9, 10, 11] 1 rfl).2 2
     (Or.inr (by decide))⟩

/-! ## Pixel LSB extraction (image module, `extractLSB`)

`extractLSB` allocates `bits = new Uint8Array(bitCount)` (all zeros), computes
`actualBitCount = Math.min(bitCount, maxBits - bitOffset)` (negative when the
offset exceeds capacity, in which case the loop never writes; rendered with
truncated `Nat` subtraction, which yields the same written prefix), then walks
the non-alpha bytes, skipping the first `bitOffset` channel bits and writing
`(imageData[i] >> j) & 1` at consecutive indices while `bitIndex <
actualBitCount`.  `chanLoop` is the inner `for (j = 0; j < bitDepth; j++)`
loop, iterating over `List.range bitDepth`; it returns the bits written plus
the updated skip and write counters.  `pixelLoop` is the outer loop; the
result is the written prefix followed by the untouched zero tail. -/

def chanLoop (off actual b : Nat) : List Nat → Nat → Nat → List Nat × Nat × Nat
  | [], skipped, idx => ([], skipped, idx)
  | j :: js, skipped, idx =>
    if skipped < off then chanLoop off actual b js (skipped + 1) idx
    else if actual ≤ idx then ([], skipped, idx)
    else
      let r := chanLoop off actual b js skipped (idx + 1)
      (b / 2 ^ j % 2 :: r.1, r.2)

def pixelLoop (d off actual : Nat) : List Nat → Nat → Nat → Nat → List Nat
  | [], _, _, _ => []
  | b :: rest, i, skipped, idx =>
    if actual ≤ idx then []
    else if i % 4 = 3 then pixelLoop d off actual rest (i + 1) skipped idx
    else
      let r := chanLoop off actual b (List.range d) skipped idx
      r.1 ++ pixelLoop d off actual rest (i + 1) r.2.1 r.2.2

def extractLSB (imageData : List Nat) (bitCount bitDepth bitOffset : Nat) :
    Except String (List Nat) :=
  if bitDepth < 1 ∨ 4 < bitDepth then
    .error "invalid bit depth"
  else
    let maxBits := 3 * imageData.length / 4 * bitDepth
    let actual := min bitCount (maxBits - bitOffset)
    let written := pixelLoop bitDepth bitOffset actual imageData 0 0 0
    .ok (written ++ List.replicate (bitCount - written.length) 0)

theorem chanLoop_spec (off actual b : Nat) (js : List Nat) (skipped idx : Nat) :
    idx ≤ (chanLoop off actual b js skipped idx).2.2 ∧
      (chanLoop off actual b js skipped idx).2.2 ≤ max idx actual ∧
      (chanLoop off actual b js skipped idx).1.length
        = (chanLoop off actual b js skipped idx).2.2 - idx := by
  induction js generalizing skipped idx with
  | nil => simp [chanLoop]
  | cons j js ih =>
    rw [chanLoop]
    by_cases hs : skipped < off
    · rw [if_pos hs]
      exact ih (skipped + 1) idx
    · rw [if_neg hs]
      by_cases ha : actual ≤ idx
      · rw [if_pos ha]
        simp
      · rw [if_neg ha]
        have h := ih skipped (idx + 1)
        simp only [List.length_cons]
        refine ⟨by omega, by omega, by omega⟩

theorem pixelLoop_length (d off actual : Nat) (data : List Nat) (i skipped idx : Nat) :
    (pixelLoop d off actual data i skipped idx).length ≤ actual - idx := by
  induction data generalizing i skipped idx with
  | nil => simp [pixelLoop]
  | cons b rest ih =>
    rw [pixelLoop]
    by_cases ha : actual ≤ idx
    · rw [if_pos ha]; simp
    · rw [if_neg ha]
      by_cases hi : i % 4 = 3
      · rw [if_pos hi]
        exact ih (i + 1) skipped idx
      · rw [if_neg hi]
        have hc := chanLoop_spec off actual b (List.range d) skipped idx
        have hr := ih (i + 1) (chanLoop off actual b (List.range d) skipped idx).2.1
          (chanLoop off actual b (List.range d) skipped idx).2.2
        simp only [List.length_append]
        omega

theorem getD_append_replicate_zero (w : List Nat) (n k : Nat) (hk : w.length ≤ k) :
    (w ++ List.replicate n 0).getD k 0 = 0 := by
  rcases Nat.lt_or_ge k (w.length + n) with h | h
  · rw [List.getD_eq_getElem?_getD, List.getElem?_append_right hk]
    have : k - w.length < n := by omega
    rw [List.getElem?_replicate, if_pos this]
    rfl
  · rw [List.getD_eq_getElem?_getD, List.getElem?_eq_none]
    · rfl
    · simp only [List.length_append, List.length_replicate]
      omega

theorem extractLSB_spec (data : List Nat) (bitCount bitOffset d : Nat)
    (hd1 : 1 ≤ d) (hd4 : d ≤ 4) :
    ∃ bits, extractLSB data bitCount d bitOffset = .ok bits ∧
      bits.length = bitCount ∧
      ∀ k, 3 * data.length / 4 * d - bitOffset ≤ k → k < bitCount → bits.getD k 0 = 0 := by
  have hnotbad : ¬ (d < 1 ∨ 4 < d) := by omega
  refine ⟨_, by rw [extractLSB, if_neg hnotbad], ?_, ?_⟩
  · have hw := pixelLoop_length d bitOffset
      (min bitCount (3 * data.length / 4 * d - bitOffset)) data 0 0 0
    simp only [List.length_append, List.length_replicate]
    omega
  · intro k hk1 hk2
    have hw := pixelLoop_length d bitOffset
      (min bitCount (3 * data.length / 4 * d - bitOffset)) data 0 0 0
    apply getD_append_replicate_zero
    omega

/-- C9: `extractLSB` is total over read bounds — for any bit depth 1..4 and
arbitrary `bitCount` and `bitOffset` it succeeds, returns exactly `bitCount`
entries, and every entry at an index at or beyond the available capacity
`maxBits - bitOffset` is zero. -/
theorem claim_C9_extractLSB_total (data : List Nat) (bitCount bitOffset d : Nat)
    (hd1 : 1 ≤ d) (hd4 : d ≤ 4) :
    ∃ bits, extractLSB data bitCount d bitOffset = .ok bits ∧
      bits.length = bitCount ∧
      ∀ k, 3 * data.length / 4 * d - bitOffset ≤ k → k < bitCount → bits.getD k 0 = 0 :=
  extractLSB_spec data bitCount bitOffset d hd1 hd4

/-- Witness for C9: reading 5 bits at offset 99 from a 4-byte buffer (capacity
3 bits) succeeds with five entries, all zero past the exhausted capacity. -/
theorem claim_C9_witness :
    extractLSB [4, 5, 6, 7] 5 1 99 = .ok [0, 0, 0, 0, 0] := by
  obtain ⟨bits, hb, hlen, hzero⟩ := claim_C9_extractLSB_total [4, 5, 6, 7] 5 99 1
    (by decide) (by decide)
  have h0 := hzero 0 (by decide) (by decide)
  have h1 := hzero 1 (by decide) (by decide)
  have h2 := hzero 2 (by decide) (by decide)
  have h3 := hzero 3 (by decide) (by decide)
  have h4 := hzero 4 (by decide) (by decide)
  have : bits = [0, 0, 0, 0, 0] := by
    cases bits with
    | nil => simp at hlen
    | cons a0 t0 =>
      cases t0 with
      | nil => simp at hlen
      | cons a1 t1 =>
        cases t1 with
        | nil => simp at hlen
        | cons a2 t2 =>
          cases t2 with
          | nil => simp at hlen
          | cons a3 t3 =>
            cases t3 with
            | nil => simp at hlen
            | cons a4 t4 =>
              cases t4 with
              | cons a5 t5 => simp at hlen
              | nil =>
                simp only [List.getD_cons_zero, List.getD_cons_succ] at h0 h1 h2 h3 h4
                rw [h0, h1, h2, h3, h4]
    
  rw [this] at hb
  exact hb

/-! ## JPEG DCT coefficient engine (image module, `embedInCoefficients` /
`extractFromCoefficients`)

A coefficient is usable iff it is not in -1, 0, +1.  Embedding walks
components (skipping chroma when `useChroma` is false), block rows, blocks,
and AC indices 1..63 in order, stopping as soon as the message is exhausted
(the early `break`s only skip work that would change nothing, so they are
rendered by threading the remaining bits).  At a usable coefficient the low
bit of the magnitude is set to the message bit, preserving the sign; if that
would produce magnitude 0 or 1 the coefficient is restored and the bit is not
consumed (`continue`).  For a positive JavaScript number `c`, `c | 1` is
`if c % 2 = 0 then c + 1 else c` and `c & ~1` is `c - c % 2`.  Extraction
emits `Math.abs(coeff) & 1` for each usable coefficient into a zero-filled
array of `bitCount` entries, visiting the same positions in the same order;
it is rendered as the usable-LSB stream truncated to `bitCount` and padded
with the untouched zeros. -/

def usableB (c : Int) : Bool :=
  c != 0 && c != 1 && c != -1

def embedStep (c : Int) (bit : Nat) : Int × Bool :=
  let messageBit := bit % 2
  let coeffLSB := c.natAbs % 2
  if coeffLSB = messageBit then (c, true)
  else if 0 < c then
    let cNew : Int := if messageBit = 1 then (if c % 2 = 0 then c + 1 else c) else c - c % 2
    if cNew = 0 ∨ cNew = 1 then (c, false) else (cNew, true)
  else
    let a := -c
    let aNew : Int := if messageBit = 1 then (if a % 2 = 0 then a + 1 else a) else a - a % 2
    if aNew = 0 ∨ aNew = 1 then (c, false) else (-aNew, true)

def embedAC : List Int → List Nat → List Int × List Nat
  | [], bits => ([], bits)
  | c :: rest, [] =>
    if usableB c then (c :: rest, [])
    else
      let r := embedAC rest []
      (c :: r.1, r.2)
  | c :: rest, b :: bs =>
    if usableB c then
      let s := embedStep c b
      if s.2 then
        let r := embedAC rest bs
        (s.1 :: r.1, r.2)
      else
        let r := embedAC rest (b :: bs)
        (s.1 :: r.1, r.2)
    else
      let r := embedAC rest (b :: bs)
      (c :: r.1, r.2)

def streamAC (cs : List Int) : List Nat :=
  (cs.filter usableB).map (fun c => c.natAbs % 2)

theorem embedStep_spec (c : Int) (b : Nat) (hc : usableB c = true) :
    (embedStep c b).2 = true ∧ usableB (embedStep c b).1 = true ∧
      (embedStep c b).1.natAbs % 2 = b % 2 := by
  have hc2 : c ≤ -2 ∨ 2 ≤ c := by
    simp only [usableB, Bool.and_eq_true, bne_iff_ne, ne_eq] at hc
    omega
  simp only [embedStep]
  by_cases h1 : c.natAbs % 2 = b % 2
  · rw [if_pos h1]
    refine ⟨rfl, hc, h1⟩
  · rw [if_neg h1]
    by_cases hpos : 0 < c
    · rw [if_pos hpos]
      by_cases hb1 : b % 2 = 1
      · have hceven : c % 2 = 0 := by omega
        rw [if_pos hb1, if_pos hceven]
        have hne : ¬ (c + 1 = 0 ∨ c + 1 = 1) := by omega
        rw [if_neg hne]
        refine ⟨rfl, by simp only [usableB, Bool.and_eq_true, bne_iff_ne, ne_eq]; omega, by omega⟩
      · have hcodd : c % 2 = 1 := by omega
        rw [if_neg hb1]
        have hne : ¬ (c - c % 2 = 0 ∨ c - c % 2 = 1) := by omega
        rw [if_neg hne]
        refine ⟨rfl, by simp only [usableB, Bool.and_eq_true, bne_iff_ne, ne_eq]; omega, by omega⟩
    · rw [if_neg hpos]
      by_cases hb1 : b % 2 = 1
      · have haeven : -c % 2 = 0 := by omega
        rw [if_pos hb1, if_pos haeven]
        have hne : ¬ (-c + 1 = 0 ∨ -c + 1 = 1) := by omega
        rw [if_neg hne]
        refine ⟨rfl, by simp only [usableB, Bool.and_eq_true, bne_iff_ne, ne_eq]; omega, by omega⟩
      · rw [if_neg hb1]
        have hne : ¬ (-c - -c % 2 = 0 ∨ -c - -c % 2 = 1) := by omega
        rw [if_neg hne]
        refine ⟨rfl, by simp only [usableB, Bool.and_eq_true, bne_iff_ne, ne_eq]; omega, by omega⟩

theorem embedAC_length (cs : List Int) (m : List Nat) :
    (embedAC cs m).1.length = cs.length := by
  induction cs generalizing m with
  | nil => rfl
  | cons c rest ih =>
    cases m with
    | nil =>
      rw [embedAC]
      by_cases hc : usableB c
      · rw [if_pos hc]
      · rw [if_neg hc]
        simp only [List.length_cons, ih]
    | cons b bs =>
      rw [embedAC]
      by_cases hc : usableB c
      · rw [if_pos hc]
        by_cases hs : (embedStep c b).2
        · simp only [hs, if_pos, List.length_cons, ih]
        · simp only [hs, Bool.false_eq_true, if_false, List.length_cons, ih]
      · rw [if_neg hc]
        simp only [List.length_cons, ih]

theorem embedAC_spec (cs : List Int) (m : List Nat) (hm : ∀ b ∈ m, b < 2) :
    (embedAC cs m).2 = m.drop (streamAC cs).length ∧
      streamAC (embedAC cs m).1
        = m.take (streamAC cs).length ++ (streamAC cs).drop m.length := by
  induction cs generalizing m with
  | nil =>
    simp [embedAC, streamAC]
  | cons c rest ih =>
    by_cases hc : usableB c
    · have hstream : streamAC (c :: rest) = c.natAbs % 2 :: streamAC rest := by
        simp [streamAC, List.filter_cons, hc]
      cases m with
      | nil =>
        rw [embedAC, if_pos hc]
        refine ⟨by simp, by simp⟩
      | cons b bs =>
        rw [embedAC, if_pos hc]
        have hb : b < 2 := hm b (List.mem_cons_self b bs)
        have hbs : ∀ x ∈ bs, x < 2 := fun x hx => hm x (List.mem_cons_of_mem b hx)
        obtain ⟨hcons, husable, hlsb⟩ := embedStep_spec c b hc
        rw [if_pos hcons]
        obtain ⟨ih1, ih2⟩ := ih bs hbs
        constructor
        · rw [hstream]
          simp only [List.length_cons, List.drop_succ_cons]
          exact ih1
        · have hstream2 : streamAC ((embedStep c b).1 :: (embedAC rest bs).1)
              = (embedStep c b).1.natAbs % 2 :: streamAC (embedAC rest bs).1 := by
            simp [streamAC, List.filter_cons, husable]
          rw [hstream, hstream2, ih2, hlsb]
          simp only [List.length_cons, List.take_succ_cons, List.drop_succ_cons,
            List.cons_append]
          have : b % 2 = b := Nat.mod_eq_of_lt hb
          rw [this]
    · have hstream : streamAC (c :: rest) = streamAC rest := by
        simp [streamAC, List.filter_cons, hc]
      have hgoal : ∀ r : List Int × List Nat,
          r = embedAC rest m →
          (r.2 = m.drop (streamAC rest).length ∧
            streamAC (c :: r.1)
              = m.take (streamAC rest).length ++ (streamAC rest).drop m.length) →
          ((c :: r.1, r.2).2 = m.drop (streamAC (c :: rest)).length ∧
            streamAC ((c :: r.1, r.2).1)
              = m.take (streamAC (c :: rest)).length
                ++ (streamAC (c :: rest)).drop m.length) := by
        intro r _ hr
        rw [hstream]
        exact hr
      obtain ⟨ih1, ih2⟩ := ih m hm
      have hstream2 : streamAC (c :: (embedAC rest m).1) = streamAC (embedAC rest m).1 := by
        simp [streamAC, List.filter_cons, hc]
      cases m with
      | nil =>
        rw [embedAC, if_neg hc]
        refine hgoal _ rfl ⟨ih1, by rw [hstream2]; exact ih2⟩
      | cons b bs =>
        rw [embedAC, if_neg hc]
        refine hgoal _ rfl ⟨ih1, by rw [hstream2]; exact ih2⟩

def acOf (block : List Int) : List Int :=
  (block.drop 1).take 63

def embedBlock (block : List Int) (bits : List Nat) : List Int × List Nat :=
  let r := embedAC (acOf block) bits
  (block.take 1 ++ r.1 ++ block.drop 64, r.2)

def streamBlock (block : List Int) : List Nat :=
  streamAC (acOf block)

theorem acOf_rebuild (block : List Int) (ac : List Int) (hlen : ac.length = (acOf block).length) :
    acOf (block.take 1 ++ ac ++ block.drop 64) = ac := by
  cases block with
  | nil =>
    have : ac = [] := by
      simpa [acOf] using List.length_eq_zero.mp (by simpa [acOf] using hlen)
    subst this
    rfl
  | cons b t =>
    have hlen2 : ac.length = min 63 t.length := by
      simpa [acOf, List.length_take, List.length_drop] using hlen
    show acOf (b :: (ac ++ t.drop 63)) = ac
    show ((ac ++ t.drop 63).take 63) = ac
    rcases le_or_lt t.length 63 with h | h
    · have hd : t.drop 63 = [] := List.drop_eq_nil_of_le h
      rw [hd, List.append_nil]
      exact List.take_of_length_le (by omega)
    · have h63 : ac.length = 63 := by omega
      rw [List.take_append_of_le_length (by omega)]
      rw [← h63, List.take_length]

theorem embedBlock_spec (block : List Int) (m : List Nat) (hm : ∀ b ∈ m, b < 2) :
    (embedBlock block m).2 = m.drop (streamBlock block).length ∧
      streamBlock (embedBlock block m).1
        = m.take (streamBlock block).length ++ (streamBlock block).drop m.length := by
  obtain ⟨h1, h2⟩ := embedAC_spec (acOf block) m hm
  have hrebuild := acOf_rebuild block (embedAC (acOf block) m).1
    (embedAC_length (acOf block) m)
  simp only [embedBlock, streamBlock]
  rw [hrebuild]
  exact ⟨h1, h2⟩

def embedList {α : Type} (f : α → List Nat → α × List Nat) :
    List α → List Nat → List α × List Nat
  | [], bits => ([], bits)
  | x :: rest, bits =>
    let p := f x bits
    let q := embedList f rest p.2
    (p.1 :: q.1, q.2)

def streamList {α : Type} (g : α → List Nat) (l : List α) : List Nat :=
  l.foldr (fun x acc => g x ++ acc) []

theorem embedList_spec {α : Type} (f : α → List Nat → α × List Nat) (g : α → List Nat)
    (hf : ∀ x m, (∀ b ∈ m, b < 2) →
      (f x m).2 = m.drop (g x).length ∧
        g (f x m).1 = m.take (g x).length ++ (g x).drop m.length)
    (l : List α) (m : List Nat) (hm : ∀ b ∈ m, b < 2) :
    (embedList f l m).2 = m.drop (streamList g l).length ∧
      streamList g (embedList f l m).1
        = m.take (streamList g l).length ++ (streamList g l).drop m.length := by
  induction l generalizing m with
  | nil =>
    simp [embedList, streamList]
  | cons x rest ih =>
    obtain ⟨hp1, hp2⟩ := hf x m hm
    have hm2 : ∀ b ∈ (f x m).2, b < 2 := by
      rw [hp1]
      exact fun b hb => hm b (List.mem_of_mem_drop hb)
    obtain ⟨ih1, ih2⟩ := ih (f x m).2 hm2
    have hstream : streamList g (x :: rest) = g x ++ streamList g rest := rfl
    have hstream2 : streamList g ((f x m).1 :: (embedList f rest (f x m).2).1)
        = g (f x m).1 ++ streamList g (embedList f rest (f x m).2).1 := rfl
    constructor
    · show (embedList f rest (f x m).2).2 = _
      rw [ih1, hp1, List.drop_drop, hstream, List.length_append]
    · show streamList g ((f x m).1 :: (embedList f rest (f x m).2).1) = _
      rw [hstream2, ih2, hp2, hp1, hstream]
      rw [List.length_append, List.length_drop]
      rw [List.take_add, List.drop_append_eq_append_drop]
      rcases le_or_lt m.length (g x).length with hle | hlt
      · have hnil : m.drop (g x).length = [] := List.drop_eq_nil_of_le hle
        have h0 : m.length - (g x).length = 0 := by omega
        rw [hnil, h0]
        simp only [List.take_nil, List.drop_zero, List.append_nil, List.nil_append,
          List.append_assoc]
      · have hnil : (g x).drop m.length = [] := List.drop_eq_nil_of_le (by omega)
        rw [hnil]
        simp only [List.append_nil, List.nil_append, List.append_assoc]

structure JPEGComponent where
  id : Int
  blocks : List (List (List Int))
deriving DecidableEq

structure JPEGQuantizedCoefficients where
  components : List JPEGComponent
deriving DecidableEq

def embedComponent (useChroma : Bool) (comp : JPEGComponent) (bits : List Nat) :
    JPEGComponent × List Nat :=
  if !useChroma && comp.id != 1 then (comp, bits)
  else
    let r := embedList (embedList embedBlock) comp.blocks bits
    (⟨comp.id, r.1⟩, r.2)

def streamComponent (useChroma : Bool) (comp : JPEGComponent) : List Nat :=
  if !useChroma && comp.id != 1 then []
  else streamList (streamList streamBlock) comp.blocks

theorem embedComponent_spec (useChroma : Bool) (comp : JPEGComponent) (m : List Nat)
    (hm : ∀ b ∈ m, b < 2) :
    (embedComponent useChroma comp m).2 = m.drop (streamComponent useChroma comp).length ∧
      streamComponent useChroma (embedComponent useChroma comp m).1
        = m.take (streamComponent useChroma comp).length
          ++ (streamComponent useChroma comp).drop m.length := by
  by_cases hskip : !useChroma && comp.id != 1
  · constructor
    · simp [embedComponent, streamComponent, hskip]
    · simp [embedComponent, streamComponent, hskip]
  · have hb : (!useChroma && comp.id != 1) = false := by
      cases hval : (!useChroma && comp.id != 1)
      · rfl
      · exact absurd hval hskip
    have hrow := fun (row : List (List Int)) (m : List Nat) (hm : ∀ b ∈ m, b < 2) =>
      embedList_spec embedBlock streamBlock embedBlock_spec row m hm
    have h := embedList_spec (embedList embedBlock) (streamList streamBlock) hrow
      comp.blocks m hm
    constructor
    · simp only [embedComponent, streamComponent, hb, Bool.false_eq_true, if_false]
      exact h.1
    · simp only [embedComponent, streamComponent, hb, Bool.false_eq_true, if_false]
      exact h.2

def embedInCoefficients (coefficients : JPEGQuantizedCoefficients) (messageBits : List Nat)
    (useChroma : Bool) : Except String JPEGQuantizedCoefficients :=
  let r := embedList (embedComponent useChroma) coefficients.components messageBits
  if r.2.isEmpty then .ok ⟨r.1⟩
  else .error "message too large for jpeg coefficient capacity"

def extractFromCoefficients (coefficients : JPEGQuantizedCoefficients) (bitCount : Nat)
    (useChroma : Bool) : List Nat :=
  let s := streamList (streamComponent useChroma) coefficients.components
  s.take bitCount ++ List.replicate (bitCount - (s.take bitCount).length) 0

/-- C2: whenever `embedInCoefficients` succeeds (the capacity sufficed to place
every message bit), extracting `|m|` bits from the result recovers the message
exactly: both sides visit the same usable-coefficient positions in the same
order, embedding preserves usability and sign, and the magnitude LSB carries
the bit. -/
theorem claim_C2_jpeg_roundtrip (K : JPEGQuantizedCoefficients) (m : List Nat)
    (useChroma : Bool) (K2 : JPEGQuantizedCoefficients)
    (hm : ∀ b ∈ m, b < 2)
    (h : embedInCoefficients K m useChroma = .ok K2) :
    extractFromCoefficients K2 m.length useChroma = m := by
  have hspec := embedList_spec (embedComponent useChroma) (streamComponent useChroma)
    (fun x m hm => embedComponent_spec useChroma x m hm) K.components m hm
  simp only [embedInCoefficients] at h
  by_cases hrem : (embedList (embedComponent useChroma) K.components m).2.isEmpty
  · rw [if_pos hrem] at h
    have hK2 : K2 = ⟨(embedList (embedComponent useChroma) K.components m).1⟩ :=
      (Except.ok.inj h).symm
    subst hK2
    have hempty : (embedList (embedComponent useChroma) K.components m).2 = [] :=
      List.isEmpty_iff.mp hrem
    have hlen : m.length ≤ (streamList (streamComponent useChroma) K.components).length := by
      have := hspec.1
      rw [hempty] at this
      have hdrop := congrArg List.length this
      simp only [List.length_nil, List.length_drop] at hdrop
      omega
    have hstream2 : streamList (streamComponent useChroma)
        (embedList (embedComponent useChroma) K.components m).1
          = m ++ (streamList (streamComponent useChroma) K.components).drop m.length := by
      rw [hspec.2, List.take_of_length_le hlen]
    simp only [extractFromCoefficients]
    rw [hstream2]
    rw [List.take_left]
    rw [Nat.sub_self, List.replicate_zero, List.append_nil]
  · rw [if_neg hrem] at h
    exact absurd h (by simp)

/-- Witness for C2: embedding bits `[1, 0]` into a one-component object with a
single block `[0, 2, 3]` (DC 0, usable ACs 2 and 3) yields ACs `[3, 2]`, and
extraction recovers `[1, 0]`. -/
theorem claim_C2_witness :
    extractFromCoefficients ⟨[⟨1, [[[0, 3, 2]]]⟩]⟩ 2 true = [1, 0] :=
  claim_C2_jpeg_roundtrip ⟨[⟨1, [[[0, 2, 3]]]⟩]⟩ [1, 0] true ⟨[⟨1, [[[0, 3, 2]]]⟩]⟩
    (by decide) rfl

/-! ## Multi-frame split-mode decoder (image module,
`extractTextFromImageFrames` / `extractDataFromImageFrames`, split path)

A frame is modelled by its RGBA data bytes.  Mode detection probes the first
`min(5, n)` frames: a frame detects split mode when its first 96 LSBs parse as
a chunk header with `chunkIndex < chunks && chunks > 0 && chunks < 10000 &&
chunkSize > 0 && chunkSize < 1000000`.  The chunk-collection loop then visits
every frame of length at least 12, re-parses the header, and skips the frame
only when `chunkIndex >= totalChunks || chunkSize === 0 || chunkSize >
1000000` — it does not re-check `totalChunks < 10000`.  Collected chunks are
sorted by index (JavaScript `Array.prototype.sort` is stable; `sortByIdx` is
a stable insertion sort) and their payloads concatenated.
`DataView.getUint32(k, true)` on the 12 header bytes is `readU32 (drop k)`. -/

def readU32 (bytes : List Nat) : Nat :=
  bytes.getD 0 0 + 256 * bytes.getD 1 0 + 65536 * bytes.getD 2 0
    + 16777216 * bytes.getD 3 0

def parsedChunkHeader (bitDepth : Nat) (frame : List Nat) : Nat × Nat × Nat :=
  match extractLSB frame 96 bitDepth 0 with
  | .error _ => (0, 0, 0)
  | .ok headerBits =>
    let headerBytes := bitsToBytes headerBits
    (readU32 headerBytes, readU32 (headerBytes.drop 4), readU32 (headerBytes.drop 8))

def probeSplit (bitDepth : Nat) (frame : List Nat) : Bool :=
  if frame.length < 12 then false
  else
    let h := parsedChunkHeader bitDepth frame
    decide (h.1 < h.2.1) && decide (0 < h.2.1) && decide (h.2.1 < 10000)
      && decide (0 < h.2.2) && decide (h.2.2 < 1000000)

def frameChunk (bitDepth : Nat) (frame : List Nat) : Option (Nat × List Nat) :=
  if frame.length < 12 then none
  else
    let h := parsedChunkHeader bitDepth frame
    if h.2.1 ≤ h.1 ∨ h.2.2 = 0 ∨ 1000000 < h.2.2 then none
    else
      match extractLSB frame (h.2.2 * 8) bitDepth 96 with
      | .error _ => none
      | .ok chunkDataBits =>
        let chunkData := bitsToBytes chunkDataBits
        if chunkData.length = h.2.2 then some (h.1, chunkData) else none

def insertByIdx (c : Nat × List Nat) : List (Nat × List Nat) → List (Nat × List Nat)
  | [] => [c]
  | x :: xs => if x.1 < c.1 then x :: insertByIdx c xs else c :: x :: xs

def sortByIdx (chunks : List (Nat × List Nat)) : List (Nat × List Nat) :=
  chunks.foldr insertByIdx []

def extractDataFromImageFrames (frames : List (List Nat))
    (dataLength bitDepth frameIndex : Nat) : Except String (List Nat) :=
  if (frames.take 5).any (probeSplit bitDepth) then
    let chunks := frames.filterMap (frameChunk bitDepth)
    if chunks.isEmpty then .error "no valid chunks found"
    else .ok ((sortByIdx chunks).foldr (fun c acc => c.2 ++ acc) [])
  else
    match frames.get? frameIndex with
    | none => .error "frame index out of range"
    | some frame =>
      match extractLSB frame (dataLength * 8) bitDepth 0 with
      | .error e => .error e
      | .ok extractedBits => .ok (bitsToBytes extractedBits)

theorem bitsToBytes_length : ∀ bits : List Nat, (bitsToBytes bits).length = bits.length / 8
  | [] => rfl
  | [a0] => by
      have h : bitsToBytes [a0] = [] := rfl
      simp [h]
  | [a0, a1] => by
      have h : bitsToBytes [a0, a1] = [] := rfl
      simp [h]
  | [a0, a1, a2] => by
      have h : bitsToBytes [a0, a1, a2] = [] := rfl
      simp [h]
  | [a0, a1, a2, a3] => by
      have h : bitsToBytes [a0, a1, a2, a3] = [] := rfl
      simp [h]
  | [a0, a1, a2, a3, a4] => by
      have h : bitsToBytes [a0, a1, a2, a3, a4] = [] := rfl
      simp [h]
  | [a0, a1, a2, a3, a4, a5] => by
      have h : bitsToBytes [a0, a1, a2, a3, a4, a5] = [] := rfl
      simp [h]
  | [a0, a1, a2, a3, a4, a5, a6] => by
      have h : bitsToBytes [a0, a1, a2, a3, a4, a5, a6] = [] := rfl
      simp [h]
  | b0 :: b1 :: b2 :: b3 :: b4 :: b5 :: b6 :: b7 :: rest => by
      rw [bitsToBytes]
      simp only [List.length_cons]
      rw [bitsToBytes_length rest]
      omega

theorem insertByIdx_perm (c : Nat × List Nat) (chunks : List (Nat × List Nat)) :
    List.Perm (insertByIdx c chunks) (c :: chunks) := by
  induction chunks with
  | nil => exact List.Perm.refl _
  | cons x xs ih =>
    rw [insertByIdx]
    by_cases h : x.1 < c.1
    · rw [if_pos h]
      exact (ih.cons x).trans (List.Perm.swap c x xs)
    · rw [if_neg h]

theorem sortByIdx_perm (chunks : List (Nat × List Nat)) :
    List.Perm (sortByIdx chunks) chunks := by
  induction chunks with
  | nil => exact List.Perm.refl _
  | cons x xs ih =>
    exact (insertByIdx_perm x (sortByIdx xs)).trans (ih.cons x)

theorem insertByIdx_sorted (c : Nat × List Nat) (chunks : List (Nat × List Nat))
    (h : List.Sorted (fun a b : Nat × List Nat => a.1 ≤ b.1) chunks) :
    List.Sorted (fun a b : Nat × List Nat => a.1 ≤ b.1) (insertByIdx c chunks) := by
  induction chunks with
  | nil => simp [insertByIdx]
  | cons x xs ih =>
    rw [List.sorted_cons] at h
    rw [insertByIdx]
    by_cases hx : x.1 < c.1
    · rw [if_pos hx]
      rw [List.sorted_cons]
      refine ⟨?_, ih h.2⟩
      intro y hy
      rcases List.mem_cons.mp ((insertByIdx_perm c xs).mem_iff.mp hy) with hy | hy
      · subst hy; omega
      · exact h.1 y hy
    · rw [if_neg hx]
      rw [List.sorted_cons]
      constructor
      · intro y hy
        rcases List.mem_cons.mp hy with hy | hy
        · subst hy; omega
        · exact Nat.le_trans (by omega : c.1 ≤ x.1) (h.1 y hy)
      · exact List.sorted_cons.mpr h

theorem sortByIdx_sorted (chunks : List (Nat × List Nat)) :
    List.Sorted (fun a b : Nat × List Nat => a.1 ≤ b.1) (sortByIdx chunks) := by
  induction chunks with
  | nil => simp [sortByIdx]
  | cons x xs ih => exact insertByIdx_sorted x (sortByIdx xs) ih

theorem foldr_append_eq_join (chunks : List (Nat × List Nat)) :
    chunks.foldr (fun c acc => c.2 ++ acc) [] = (chunks.map Prod.snd).flatten := by
  induction chunks with
  | nil => rfl
  | cons x xs ih => simp [ih]

theorem frameChunk_isSome (d : Nat) (hd1 : 1 ≤ d) (hd4 : d ≤ 4) (frame : List Nat) :
    (frameChunk d frame).isSome = true ↔
      (12 ≤ frame.length ∧
        (parsedChunkHeader d frame).1 < (parsedChunkHeader d frame).2.1 ∧
        0 < (parsedChunkHeader d frame).2.2 ∧
        (parsedChunkHeader d frame).2.2 ≤ 1000000) := by
  rw [frameChunk]
  by_cases h12 : frame.length < 12
  · rw [if_pos h12]
    simp only [Option.isSome_none, Bool.false_eq_true, false_iff]
    intro hcon
    omega
  · rw [if_neg h12]
    by_cases hrej : (parsedChunkHeader d frame).2.1 ≤ (parsedChunkHeader d frame).1
        ∨ (parsedChunkHeader d frame).2.2 = 0 ∨ 1000000 < (parsedChunkHeader d frame).2.2
    · rw [if_pos hrej]
      simp only [Option.isSome_none, Bool.false_eq_true, false_iff]
      intro hcon
      omega
    · rw [if_neg hrej]
      obtain ⟨bits, hok, hlen, -⟩ :=
        extractLSB_spec frame ((parsedChunkHeader d frame).2.2 * 8) 96 d hd1 hd4
      rw [hok]
      have hbl : (bitsToBytes bits).length = (parsedChunkHeader d frame).2.2 := by
        rw [bitsToBytes_length, hlen, Nat.mul_div_cancel]
        omega
      dsimp only
      rw [if_pos hbl]
      simp only [Option.isSome_some, true_iff]
      omega

/-- Amended C5: once split mode is detected, a frame contributes a chunk exactly
when it has at least 12 data bytes and its parsed header satisfies
`chunk_index < total_chunks` and `0 < chunk_size ≤ 1 000 000` (the
`total_chunks < 10 000` bound is applied only by the detection probe, not by
chunk collection); the accepted chunks, sorted stably by `chunk_index`, have
their payloads concatenated as the decoder output. -/
theorem claim_C5_split_decoder (d : Nat) (hd1 : 1 ≤ d) (hd4 : d ≤ 4)
    (frames : List (List Nat)) (dataLength frameIndex : Nat)
    (hdet : (frames.take 5).any (probeSplit d) = true)
    (hne : frames.filterMap (frameChunk d) ≠ []) :
    (∀ frame, (frameChunk d frame).isSome = true ↔
      (12 ≤ frame.length ∧
        (parsedChunkHeader d frame).1 < (parsedChunkHeader d frame).2.1 ∧
        0 < (parsedChunkHeader d frame).2.2 ∧
        (parsedChunkHeader d frame).2.2 ≤ 1000000)) ∧
    extractDataFromImageFrames frames dataLength d frameIndex
      = .ok (((sortByIdx (frames.filterMap (frameChunk d))).map Prod.snd).flatten) ∧
    List.Sorted (fun a b : Nat × List Nat => a.1 ≤ b.1)
      (sortByIdx (frames.filterMap (frameChunk d))) ∧
    List.Perm (sortByIdx (frames.filterMap (frameChunk d)))
      (frames.filterMap (frameChunk d)) := by
  refine ⟨frameChunk_isSome d hd1 hd4, ?_, sortByIdx_sorted _, sortByIdx_perm _⟩
  rw [extractDataFromImageFrames, if_pos hdet]
  dsimp only
  have hemp : (frames.filterMap (frameChunk d)).isEmpty = false := by
    cases hval : frames.filterMap (frameChunk d) with
    | nil => exact absurd hval hne
    | cons x xs => rfl
  rw [hemp]
  simp only [Bool.false_eq_true, if_false]
  rw [foldr_append_eq_join]

def splitFrameA : List Nat :=
  embedLoop 1 (List.replicate 140 0) 0 (bytesToBits [0, 0, 0, 0, 2, 0, 0, 0, 1, 0, 0, 0, 170])

def splitFrameB : List Nat :=
  embedLoop 1 (List.replicate 140 0) 0 (bytesToBits [1, 0, 0, 0, 16, 39, 0, 0, 1, 0, 0, 0, 187])

def splitFrameC : List Nat :=
  embedLoop 1 (List.replicate 140 0) 0 (bytesToBits [1, 0, 0, 0, 2, 0, 0, 0, 1, 0, 0, 0, 187])

set_option maxRecDepth 100000 in
/-- Counterexample to C5 as stated: `splitFrameB` carries the chunk header
`(chunk_index 1, total_chunks 10000, chunk_size 1)` — invalid under the
claimed bound `total_chunks < 10 000` — yet the decoder accepts it and
concatenates its payload byte 187 after frame A, returning `[170, 187]`
instead of the `[170]` the claim predicts. -/
theorem claim_C5_counterexample :
    extractDataFromImageFrames [splitFrameA, splitFrameB] 0 1 0
        = .ok [170, 187] ∧
      (parsedChunkHeader 1 splitFrameB).2.1 = 10000 ∧
      ¬ ((parsedChunkHeader 1 splitFrameB).2.1 < 10000) ∧
      ([170, 187] : List Nat) ≠ [170] := by
  refine ⟨by rfl, by rfl, by decide, by decide⟩

set_option maxRecDepth 100000 in
/-- Witness for the amended C5 at two concrete frames carrying chunks
`(0, payload 170)` and `(1, payload 187)`. -/
theorem claim_C5_witness :
    extractDataFromImageFrames [splitFrameC, splitFrameA] 0 1 0 = .ok [170, 187] := by
  have h := (claim_C5_split_decoder 1 (by decide) (by decide) [splitFrameC, splitFrameA] 0 0
    (by rfl) (by decide)).2.1
  rw [h]
  rfl

/-! ## ZWC text engine (text module)

JavaScript strings become lists of Unicode code points.  The ZWC alphabet and
the sentinels are the six zero-width code points of the source.  `String.raw
replace` with a string pattern removes the first occurrence (`removeFirst`);
`replace` with the global ZWC regular expression removes every ZWC code point
(`stripZWC`); `String.prototype.trim` drops the JavaScript whitespace set from
both ends (`jsTrim`).  `TextEncoder`/`TextDecoder(utf-8, fatal)` are modelled
concretely by `utf8Encode`/`utf8Decode`.  The deflate compression streams and
the WebCrypto AES-256-CTR password layer are external host collaborators and
enter as function parameters (`compressFn`/`decompressFn`,
`encryptFn`/`decryptFn`); a falsy password means the encrypt step is skipped,
rendered by the `usePassword` flag. -/

def ZWC_MAP : List Nat := [8203, 8204, 8205, 65279, 8288, 8289]

def START_SENTINEL : List Nat := [8203, 8204, 8203]

def END_SENTINEL : List Nat := [8204, 8203, 8204]

def PAYLOAD_TYPE_TEXT : Nat := 1

def PAYLOAD_TYPE_BINARY : Nat := 2

def isZWC (c : Nat) : Bool :=
  c == 8203 || c == 8204 || c == 8205 || c == 65279 || c == 8288 || c == 8289

def zwcIndex (c : Nat) : Option Nat :=
  if c = 8203 then some 0
  else if c = 8204 then some 1
  else if c = 8205 then some 2
  else if c = 65279 then some 3
  else if c = 8288 then some 4
  else if c = 8289 then some 5
  else none

def zwcChar (d : Nat) : Nat := ZWC_MAP.getD d 0

def byteToZWC (b : Nat) : List Nat :=
  [zwcChar (b / 216 % 6), zwcChar (b / 36 % 6), zwcChar (b / 6 % 6), zwcChar (b % 6)]

def bytesToZWC (bytes : List Nat) : List Nat :=
  bytes.foldr (fun b acc => byteToZWC b ++ acc) []

def quadsToBytes : List Nat → List Nat
  | d0 :: d1 :: d2 :: d3 :: rest => (d0 * 216 + d1 * 36 + d2 * 6 + d3) :: quadsToBytes rest
  | _ => []

def zwcToBytes (zwcString : List Nat) : Except String (List Nat) :=
  let digits := zwcString.filterMap zwcIndex
  if digits.length % 4 ≠ 0 then .error "invalid zwc length"
  else .ok (quadsToBytes digits)

def extractZWCChars (s : List Nat) : List Nat := s.filter isZWC

def stripZWC (s : List Nat) : List Nat := s.filter (fun c => !(isZWC c))

def startsWithL : List Nat → List Nat → Bool
  | [], _ => true
  | _ :: _, [] => false
  | p :: ps, x :: xs => p == x && startsWithL ps xs

def indexOfSub (pat : List Nat) : List Nat → Option Nat
  | [] => if startsWithL pat [] then some 0 else none
  | x :: t =>
    if startsWithL pat (x :: t) then some 0
    else (indexOfSub pat t).map (· + 1)

def removeFirst (pat : List Nat) : List Nat → List Nat
  | [] => []
  | x :: xs =>
    if startsWithL pat (x :: xs) then (x :: xs).drop pat.length
    else x :: removeFirst pat xs

def isJsWhitespace (c : Nat) : Bool :=
  c == 9 || c == 10 || c == 11 || c == 12 || c == 13 || c == 32 || c == 160
    || c == 5760 || (decide (8192 ≤ c) && decide (c ≤ 8202)) || c == 8232
    || c == 8233 || c == 8239 || c == 8287 || c == 12288 || c == 65279

def jsTrim (s : List Nat) : List Nat :=
  ((s.dropWhile isJsWhitespace).reverse.dropWhile isJsWhitespace).reverse

def u32le (n : Nat) : List Nat :=
  [n % 256, n / 256 % 256, n / 65536 % 256, n / 16777216 % 256]

def utf8EncodeChar (c : Nat) : List Nat :=
  if c < 128 then [c]
  else if c < 2048 then [192 + c / 64, 128 + c % 64]
  else if c < 65536 then [224 + c / 4096, 128 + c / 64 % 64, 128 + c % 64]
  else [240 + c / 262144, 128 + c / 4096 % 64, 128 + c / 64 % 64, 128 + c % 64]

def utf8Encode (s : List Nat) : List Nat :=
  s.foldr (fun c acc => utf8EncodeChar c ++ acc) []

def utf8Decode : List Nat → Except String (List Nat)
  | [] => .ok []
  | b :: rest =>
    if b < 128 then (utf8Decode rest).map (fun t => b :: t)
    else if b < 194 then .error "invalid utf-8"
    else if b < 224 then
      if rest.length < 1 then .error "invalid utf-8"
      else
        let b1 := rest.getD 0 0
        if 128 ≤ b1 ∧ b1 < 192 then
          (utf8Decode (rest.drop 1)).map (fun t => ((b - 192) * 64 + (b1 - 128)) :: t)
        else .error "invalid utf-8"
    else if b < 240 then
      if rest.length < 2 then .error "invalid utf-8"
      else
        let b1 := rest.getD 0 0
        let b2 := rest.getD 1 0
        if ((if b = 224 then 160 else 128) ≤ b1 ∧ b1 < (if b = 237 then 160 else 192))
            ∧ (128 ≤ b2 ∧ b2 < 192) then
          (utf8Decode (rest.drop 2)).map
            (fun t => ((b - 224) * 4096 + (b1 - 128) * 64 + (b2 - 128)) :: t)
        else .error "invalid utf-8"
    else if b < 245 then
      if rest.length < 3 then .error "invalid utf-8"
      else
        let b1 := rest.getD 0 0
        let b2 := rest.getD 1 0
        let b3 := rest.getD 2 0
        if ((if b = 240 then 144 else 128) ≤ b1 ∧ b1 < (if b = 244 then 144 else 192))
            ∧ (128 ≤ b2 ∧ b2 < 192) ∧ (128 ≤ b3 ∧ b3 < 192) then
          (utf8Decode (rest.drop 3)).map
            (fun t => ((b - 240) * 262144 + (b1 - 128) * 4096 + (b2 - 128) * 64
              + (b3 - 128)) :: t)
        else .error "invalid utf-8"
    else .error "invalid utf-8"
termination_by bytes => bytes.length
decreasing_by
  · simp only [List.length_cons]; omega
  · simp only [List.length_cons, List.length_drop]; omega
  · simp only [List.length_cons, List.length_drop]; omega
  · simp only [List.length_cons, List.length_drop]; omega

def encodeText (compressFn encryptFn : List Nat → List Nat) (usePassword : Bool)
    (coverText secretMessage : List Nat) : List Nat :=
  let data := compressFn (utf8Encode secretMessage)
  let data := if usePassword then encryptFn data else data
  let header := [PAYLOAD_TYPE_TEXT] ++ u32le data.length ++ data
  coverText ++ START_SENTINEL ++ bytesToZWC header ++ END_SENTINEL

def decodeText (decryptFn decompressFn : List Nat → Except String (List Nat))
    (usePassword : Bool) (stegaText : List Nat) :
    Except String (List Nat × Option (List Nat)) :=
  match indexOfSub START_SENTINEL stegaText with
  | none => .ok (stripZWC stegaText, none)
  | some startIdx =>
    let afterStart := stegaText.drop (startIdx + START_SENTINEL.length)
    let allZWC := extractZWCChars afterStart
    let visibleText :=
      jsTrim (stripZWC (removeFirst END_SENTINEL (removeFirst START_SENTINEL stegaText)))
    if allZWC.length < 20 then .ok (visibleText, none)
    else
      match zwcToBytes (allZWC.take 20) with
      | .error e => .error e
      | .ok headerBytes =>
        let payloadType := headerBytes.getD 0 0
        let dataLength := readU32 (headerBytes.drop 1)
        if payloadType ≠ PAYLOAD_TYPE_TEXT then .error "payload type mismatch"
        else if allZWC.length < 20 + dataLength * 4 then .error "incomplete payload data"
        else
          match zwcToBytes ((allZWC.take (20 + dataLength * 4)).drop 20) with
          | .error e => .error e
          | .ok rawData =>
            match (if usePassword then decryptFn rawData else .ok rawData) with
            | .error e => .error e
            | .ok plainData =>
              match decompressFn plainData with
              | .error e => .error e
              | .ok bytes =>
                match utf8Decode bytes with
                | .error e => .error e
                | .ok secretMessage => .ok (visibleText, some secretMessage)

def decodeBinary (decryptFn decompressFn : List Nat → Except String (List Nat))
    (usePassword : Bool) (stegaText : List Nat) :
    Except String (List Nat × Option (List Nat)) :=
  match indexOfSub START_SENTINEL stegaText with
  | none => .ok (stripZWC stegaText, none)
  | some startIdx =>
    let afterStart := stegaText.drop (startIdx + START_SENTINEL.length)
    let allZWC := extractZWCChars afterStart
    let visibleText :=
      jsTrim (stripZWC (removeFirst END_SENTINEL (removeFirst START_SENTINEL stegaText)))
    if allZWC.length < 20 then .ok (visibleText, none)
    else
      match zwcToBytes (allZWC.take 20) with
      | .error e => .error e
      | .ok headerBytes =>
        let payloadType := headerBytes.getD 0 0
        let dataLength := readU32 (headerBytes.drop 1)
        if payloadType ≠ PAYLOAD_TYPE_BINARY then .error "payload type mismatch"
        else if allZWC.length < 20 + dataLength * 4 then .error "incomplete payload data"
        else
          match zwcToBytes ((allZWC.take (20 + dataLength * 4)).drop 20) with
          | .error e => .error e
          | .ok rawData =>
            match (if usePassword then decryptFn rawData else .ok rawData) with
            | .error e => .error e
            | .ok plainData =>
              match decompressFn plainData with
              | .error e => .error e
              | .ok bytes => .ok (visibleText, some bytes)

inductive PayloadKind where
  | text
  | binary
deriving DecidableEq

structure DecodeResult where
  visibleText : List Nat
  payloadType : Option PayloadKind
  textData : Option (List Nat)
  binaryData : Option (List Nat)
deriving DecidableEq

def decode (decryptFn decompressFn : List Nat → Except String (List Nat))
    (usePassword : Bool) (stegaText : List Nat) : Except String DecodeResult :=
  match indexOfSub START_SENTINEL stegaText with
  | none => .ok ⟨stripZWC stegaText, none, none, none⟩
  | some startIdx =>
    let afterStart := stegaText.drop (startIdx + START_SENTINEL.length)
    let allZWC := extractZWCChars afterStart
    let visibleText :=
      jsTrim (stripZWC (removeFirst END_SENTINEL (removeFirst START_SENTINEL stegaText)))
    if allZWC.length < 20 then .ok ⟨visibleText, none, none, none⟩
    else
      match zwcToBytes (allZWC.take 20) with
      | .error e => .error e
      | .ok headerBytes =>
        let payloadType := headerBytes.getD 0 0
        let dataLength := readU32 (headerBytes.drop 1)
        if allZWC.length < 20 + dataLength * 4 then .error "incomplete payload data"
        else
          match zwcToBytes ((allZWC.take (20 + dataLength * 4)).drop 20) with
          | .error e => .error e
          | .ok rawData =>
            match (if usePassword then decryptFn rawData else .ok rawData) with
            | .error e => .error e
            | .ok plainData =>
              match decompressFn plainData with
              | .error e => .error e
              | .ok bytes =>
                if payloadType = PAYLOAD_TYPE_TEXT then
                  match utf8Decode bytes with
                  | .error e => .error e
                  | .ok textData => .ok ⟨visibleText, some .text, some textData, none⟩
                else if payloadType = PAYLOAD_TYPE_BINARY then
                  .ok ⟨visibleText, some .binary, none, some bytes⟩
                else .error "unknown payload type"

/-- C10: when the input contains no START sentinel, `decodeText`,
`decodeBinary`, and `decode` return a null payload together with
`visibleText` equal to the input with all ZWC code points removed but not
trimmed; the whitespace trim is applied only on the sentinel-found path. -/
theorem claim_C10_no_sentinel (decryptFn decompressFn : List Nat → Except String (List Nat))
    (usePassword : Bool) (t : List Nat)
    (hno : indexOfSub START_SENTINEL t = none) :
    decodeText decryptFn decompressFn usePassword t = .ok (stripZWC t, none) ∧
      decodeBinary decryptFn decompressFn usePassword t = .ok (stripZWC t, none) ∧
      decode decryptFn decompressFn usePassword t = .ok ⟨stripZWC t, none, none, none⟩ := by
  refine ⟨?_, ?_, ?_⟩
  · simp only [decodeText, hno]
  · simp only [decodeBinary, hno]
  · simp only [decode, hno]

/-- Witness for C10: the input `" x<ZWSP> "` (leading and trailing spaces, one
zero-width space) has no START sentinel; all three decoders keep the spaces
and drop only the ZWC code point. -/
theorem claim_C10_witness :
    decodeText Except.ok Except.ok false [32, 120, 8203, 32] = .ok ([32, 120, 32], none) :=
  (claim_C10_no_sentinel Except.ok Except.ok false [32, 120, 8203, 32] (by decide)).1

theorem zwcChar_mem_bound : ∀ d : Nat, d < 6 → isZWC (zwcChar d) = true := by decide

theorem zwcIndex_zwcChar : ∀ d : Nat, d < 6 → zwcIndex (zwcChar d) = some d := by decide

theorem bytesToZWC_cons (b : Nat) (rest : List Nat) :
    bytesToZWC (b :: rest) = byteToZWC b ++ bytesToZWC rest := rfl

theorem bytesToZWC_all_zwc (bs : List Nat) : ∀ c ∈ bytesToZWC bs, isZWC c = true := by
  induction bs with
  | nil => intro c hc; simp [bytesToZWC] at hc
  | cons b rest ih =>
    intro c hc
    rw [bytesToZWC_cons] at hc
    rcases List.mem_append.mp hc with hc | hc
    · simp only [byteToZWC, List.mem_cons, List.not_mem_nil, or_false] at hc
      rcases hc with hc | hc | hc | hc <;>
        · subst hc; exact zwcChar_mem_bound _ (by omega)
    · exact ih c hc

theorem bytesToZWC_append (a b : List Nat) :
    bytesToZWC (a ++ b) = bytesToZWC a ++ bytesToZWC b := by
  induction a with
  | nil => rfl
  | cons x xs ih =>
    show byteToZWC x ++ bytesToZWC (xs ++ b) = (byteToZWC x ++ bytesToZWC xs) ++ bytesToZWC b
    rw [ih, List.append_assoc]

theorem bytesToZWC_length (bs : List Nat) : (bytesToZWC bs).length = 4 * bs.length := by
  induction bs with
  | nil => rfl
  | cons b rest ih =>
    rw [bytesToZWC_cons, List.length_append, ih]
    show 4 + 4 * rest.length = 4 * (rest.length + 1)
    omega

theorem byteToZWC_length (b : Nat) : (byteToZWC b).length = 4 := rfl

theorem bytesToZWC_take (bs : List Nat) (k : Nat) :
    (bytesToZWC bs).take (4 * k) = bytesToZWC (bs.take k) := by
  induction bs generalizing k with
  | nil => simp [bytesToZWC]
  | cons b rest ih =>
    cases k with
    | zero => simp [bytesToZWC]
    | succ k2 =>
      rw [bytesToZWC_cons, List.take_append_eq_append_take]
      rw [List.take_of_length_le (by rw [byteToZWC_length]; omega)]
      rw [byteToZWC_length]
      have h4 : 4 * (k2 + 1) - 4 = 4 * k2 := by omega
      rw [h4, ih]
      rfl

theorem bytesToZWC_drop (bs : List Nat) (k : Nat) :
    (bytesToZWC bs).drop (4 * k) = bytesToZWC (bs.drop k) := by
  induction bs generalizing k with
  | nil => simp [bytesToZWC]
  | cons b rest ih =>
    cases k with
    | zero => simp [bytesToZWC]
    | succ k2 =>
      rw [bytesToZWC_cons, List.drop_append_eq_append_drop]
      rw [List.drop_eq_nil_of_le (by rw [byteToZWC_length]; omega)]
      rw [byteToZWC_length]
      have h4 : 4 * (k2 + 1) - 4 = 4 * k2 := by omega
      rw [h4, ih, List.nil_append]
      rfl

theorem filterMap_zwcIndex_byteToZWC (b : Nat) :
    (byteToZWC b).filterMap zwcIndex
      = [b / 216 % 6, b / 36 % 6, b / 6 % 6, b % 6] := by
  have h0 := zwcIndex_zwcChar (b / 216 % 6) (by omega)
  have h1 := zwcIndex_zwcChar (b / 36 % 6) (by omega)
  have h2 := zwcIndex_zwcChar (b / 6 % 6) (by omega)
  have h3 := zwcIndex_zwcChar (b % 6) (by omega)
  simp [byteToZWC, List.filterMap_cons, h0, h1, h2, h3]

theorem byte_base6_reassemble (b : Nat) (hb : b < 256) :
    b / 216 % 6 * 216 + b / 36 % 6 * 36 + b / 6 % 6 * 6 + b % 6 = b := by
  omega

theorem zwcToBytes_bytesToZWC (bs : List Nat) (hbs : ∀ b ∈ bs, b < 256) :
    zwcToBytes (bytesToZWC bs) = .ok bs := by
  have hdigits : ∀ l : List Nat, (bytesToZWC l).filterMap zwcIndex
      = l.foldr (fun b acc => b / 216 % 6 :: b / 36 % 6 :: b / 6 % 6 :: b % 6 :: acc) [] := by
    intro l
    induction l with
    | nil => rfl
    | cons b rest ih =>
      rw [bytesToZWC_cons, List.filterMap_append, filterMap_zwcIndex_byteToZWC, ih]
      rfl
  have hlen : ∀ l : List Nat,
      (l.foldr (fun b acc => b / 216 % 6 :: b / 36 % 6 :: b / 6 % 6 :: b % 6 :: acc)
        []).length = 4 * l.length := by
    intro l
    induction l with
    | nil => rfl
    | cons b rest ih =>
      simp only [List.foldr_cons, List.length_cons, ih]
      omega
  have hquads : quadsToBytes
      (bs.foldr (fun b acc => b / 216 % 6 :: b / 36 % 6 :: b / 6 % 6 :: b % 6 :: acc) [])
        = bs := by
    induction bs with
    | nil => rfl
    | cons b rest ih =>
      have hb : b < 256 := hbs b (List.mem_cons_self b rest)
      have hrest : ∀ x ∈ rest, x < 256 := fun x hx => hbs x (List.mem_cons_of_mem b hx)
      simp only [List.foldr_cons]
      rw [quadsToBytes]
      rw [ih hrest]
      congr 1
      exact byte_base6_reassemble b hb
  simp only [zwcToBytes]
  rw [hdigits bs]
  rw [if_neg (by rw [hlen bs]; omega)]
  rw [hquads]

theorem u32le_bytes (n : Nat) : ∀ b ∈ u32le n, b < 256 := by
  intro b hb
  simp only [u32le, List.mem_cons, List.not_mem_nil, or_false] at hb
  rcases hb with hb | hb | hb | hb <;> subst hb <;> omega

theorem readU32_u32le (n : Nat) (h : n < 4294967296) : readU32 (u32le n) = n := by
  simp only [readU32, u32le, List.getD_cons_zero, List.getD_cons_succ]
  omega

theorem startsWithL_append_self (pat rest : List Nat) :
    startsWithL pat (pat ++ rest) = true := by
  induction pat with
  | nil => rfl
  | cons p ps ih =>
    show (p == p && startsWithL ps (ps ++ rest)) = true
    simp [ih]

theorem startsWithL_eq_append (pat s : List Nat) (h : startsWithL pat s = true) :
    pat ++ s.drop pat.length = s := by
  induction pat generalizing s with
  | nil => simp
  | cons p ps ih =>
    cases s with
    | nil => simp [startsWithL] at h
    | cons x xs =>
      have hx : p = x ∧ startsWithL ps xs = true := by
        have := h
        simp only [startsWithL, Bool.and_eq_true, beq_iff_eq] at this
        exact this
      rw [List.cons_append, List.length_cons, List.drop_succ_cons]
      rw [hx.1, ih xs hx.2]

theorem stripZWC_all_zwc (l : List Nat) (h : ∀ c ∈ l, isZWC c = true) :
    stripZWC l = [] := by
  induction l with
  | nil => rfl
  | cons x xs ih =>
    have hx := h x (List.mem_cons_self x xs)
    simp only [stripZWC, List.filter_cons, hx, Bool.not_true, Bool.false_eq_true, if_false]
    exact ih fun c hc => h c (List.mem_cons_of_mem x hc)

theorem stripZWC_clean (l : List Nat) (h : ∀ c ∈ l, isZWC c = false) :
    stripZWC l = l := by
  induction l with
  | nil => rfl
  | cons x xs ih =>
    have hx := h x (List.mem_cons_self x xs)
    simp only [stripZWC, List.filter_cons, hx, Bool.not_false, if_true]
    show x :: stripZWC xs = x :: xs
    rw [ih fun c hc => h c (List.mem_cons_of_mem x hc)]

theorem stripZWC_append (a b : List Nat) : stripZWC (a ++ b) = stripZWC a ++ stripZWC b := by
  simp [stripZWC]

theorem stripZWC_removeFirst (pat : List Nat) (s : List Nat)
    (hpat : ∀ c ∈ pat, isZWC c = true) :
    stripZWC (removeFirst pat s) = stripZWC s := by
  induction s with
  | nil => rfl
  | cons x xs ih =>
    rw [removeFirst]
    by_cases hs : startsWithL pat (x :: xs) = true
    · rw [if_pos hs]
      conv_rhs => rw [← startsWithL_eq_append pat (x :: xs) hs]
      rw [stripZWC_append, stripZWC_all_zwc pat hpat, List.nil_append]
    · rw [if_neg hs]
      by_cases hx : isZWC x = true
      · simp only [stripZWC, List.filter_cons, hx, Bool.not_true, Bool.false_eq_true, if_false]
        exact ih
      · have hx2 : isZWC x = false := by
          cases hval : isZWC x
          · rfl
          · exact absurd hval hx
        simp only [stripZWC, List.filter_cons, hx2, Bool.not_false, if_true]
        show x :: stripZWC (removeFirst pat xs) = x :: stripZWC xs
        rw [ih]

theorem indexOfSub_clean_cover (cover s : List Nat)
    (hcov : ∀ c ∈ cover, isZWC c = false)
    (hs : startsWithL START_SENTINEL s = true) :
    indexOfSub START_SENTINEL (cover ++ s) = some cover.length := by
  induction cover with
  | nil =>
    cases s with
    | nil => simp [START_SENTINEL, startsWithL] at hs
    | cons x t =>
      rw [List.nil_append, indexOfSub, if_pos hs]
      rfl
  | cons c cs ih =>
    have hc := hcov c (List.mem_cons_self c cs)
    have hcne : c ≠ 8203 := by
      intro hval
      subst hval
      simp [isZWC] at hc
    rw [List.cons_append, indexOfSub]
    have hnostart : startsWithL START_SENTINEL (c :: (cs ++ s)) = false := by
      show ((8203 : Nat) == c && startsWithL [8204, 8203] (cs ++ s)) = false
      have : ((8203 : Nat) == c) = false := by
        simp only [beq_eq_false_iff_ne, ne_eq]
        omega
      rw [this, Bool.false_and]
    rw [hnostart]
    simp only [Bool.false_eq_true, if_false]
    rw [ih fun x hx => hcov x (List.mem_cons_of_mem c hx)]
    rfl

theorem utf8Decode_encodeChar (c : Nat) (rest : List Nat)
    (h1 : c < 1114112) (h2 : ¬(55296 ≤ c ∧ c < 57344)) :
    utf8Decode (utf8EncodeChar c ++ rest) = (utf8Decode rest).map (fun t => c :: t) := by
  by_cases hc1 : c < 128
  · have he : utf8EncodeChar c = [c] := by rw [utf8EncodeChar, if_pos hc1]
    rw [he, List.cons_append, List.nil_append, utf8Decode, if_pos hc1]
  · by_cases hc2 : c < 2048
    · have he : utf8EncodeChar c = [192 + c / 64, 128 + c % 64] := by
        rw [utf8EncodeChar, if_neg hc1, if_pos hc2]
      rw [he]
      show utf8Decode ((192 + c / 64) :: (128 + c % 64) :: rest) = _
      rw [utf8Decode]
      rw [if_neg (by omega), if_neg (by omega), if_pos (by omega)]
      rw [if_neg (by simp)]
      dsimp only [List.getD_cons_zero]
      rw [if_pos (show 128 ≤ 128 + c % 64 ∧ 128 + c % 64 < 192 by omega)]
      have hval : (192 + c / 64 - 192) * 64 + (128 + c % 64 - 128) = c := by omega
      rw [hval]
      rfl
    · by_cases hc3 : c < 65536
      · have he : utf8EncodeChar c = [224 + c / 4096, 128 + c / 64 % 64, 128 + c % 64] := by
          rw [utf8EncodeChar, if_neg hc1, if_neg hc2, if_pos hc3]
        rw [he]
        show utf8Decode ((224 + c / 4096) :: (128 + c / 64 % 64) :: (128 + c % 64) :: rest) = _
        rw [utf8Decode]
        rw [if_neg (by omega), if_neg (by omega), if_neg (by omega), if_pos (by omega)]
        rw [if_neg (by simp)]
        dsimp only [List.getD_cons_zero, List.getD_cons_succ]
        have hcond : ((if 224 + c / 4096 = 224 then 160 else 128) ≤ 128 + c / 64 % 64
            ∧ 128 + c / 64 % 64 < (if 224 + c / 4096 = 237 then 160 else 192))
            ∧ (128 ≤ 128 + c % 64 ∧ 128 + c % 64 < 192) := by
          refine ⟨⟨?_, ?_⟩, by omega⟩
          · by_cases h224 : 224 + c / 4096 = 224
            · rw [if_pos h224]; omega
            · rw [if_neg h224]; omega
          · by_cases h237 : 224 + c / 4096 = 237
            · rw [if_pos h237]; omega
            · rw [if_neg h237]; omega
        rw [if_pos hcond]
        have hval : (224 + c / 4096 - 224) * 4096 + (128 + c / 64 % 64 - 128) * 64
            + (128 + c % 64 - 128) = c := by omega
        rw [hval]
        rfl
      · have he : utf8EncodeChar c
            = [240 + c / 262144, 128 + c / 4096 % 64, 128 + c / 64 % 64, 128 + c % 64] := by
          rw [utf8EncodeChar, if_neg hc1, if_neg hc2, if_neg hc3]
        rw [he]
        show utf8Decode ((240 + c / 262144) :: (128 + c / 4096 % 64) :: (128 + c / 64 % 64)
          :: (128 + c % 64) :: rest) = _
        rw [utf8Decode]
        rw [if_neg (by omega), if_neg (by omega), if_neg (by omega), if_neg (by omega),
          if_pos (by omega)]
        rw [if_neg (by simp)]
        dsimp only [List.getD_cons_zero, List.getD_cons_succ]
        have hcond : ((if 240 + c / 262144 = 240 then 144 else 128) ≤ 128 + c / 4096 % 64
            ∧ 128 + c / 4096 % 64 < (if 240 + c / 262144 = 244 then 144 else 192))
            ∧ (128 ≤ 128 + c / 64 % 64 ∧ 128 + c / 64 % 64 < 192)
            ∧ (128 ≤ 128 + c % 64 ∧ 128 + c % 64 < 192) := by
          refine ⟨⟨?_, ?_⟩, by omega, by omega⟩
          · by_cases h240 : 240 + c / 262144 = 240
            · rw [if_pos h240]; omega
            · rw [if_neg h240]; omega
          · by_cases h244 : 240 + c / 262144 = 244
            · rw [if_pos h244]; omega
            · rw [if_neg h244]; omega
        rw [if_pos hcond]
        have hval : (240 + c / 262144 - 240) * 262144 + (128 + c / 4096 % 64 - 128) * 4096
            + (128 + c / 64 % 64 - 128) * 64 + (128 + c % 64 - 128) = c := by omega
        rw [hval]
        rfl

theorem utf8Decode_utf8Encode (s : List Nat)
    (hs : ∀ c ∈ s, c < 1114112 ∧ ¬(55296 ≤ c ∧ c < 57344)) :
    utf8Decode (utf8Encode s) = .ok s := by
  induction s with
  | nil =>
    show utf8Decode [] = Except.ok []
    rw [utf8Decode]
  | cons c cs ih =>
    have hc := hs c (List.mem_cons_self c cs)
    have hcs : ∀ x ∈ cs, x < 1114112 ∧ ¬(55296 ≤ x ∧ x < 57344) :=
      fun x hx => hs x (List.mem_cons_of_mem c hx)
    show utf8Decode (utf8EncodeChar c ++ utf8Encode cs) = _
    rw [utf8Decode_encodeChar c _ hc.1 hc.2, ih hcs]
    rfl

theorem extractZWCChars_all (l : List Nat) (h : ∀ c ∈ l, isZWC c = true) :
    extractZWCChars l = l := by
  induction l with
  | nil => rfl
  | cons x xs ih =>
    have hx := h x (List.mem_cons_self x xs)
    simp only [extractZWCChars, List.filter_cons, hx, if_true]
    show x :: extractZWCChars xs = x :: xs
    rw [ih fun c hc => h c (List.mem_cons_of_mem x hc)]

theorem header_take (n : Nat) (data : List Nat) :
    ([PAYLOAD_TYPE_TEXT] ++ u32le n ++ data).take 5 = [PAYLOAD_TYPE_TEXT] ++ u32le n :=
  List.take_left' rfl

theorem header_drop (n : Nat) (data : List Nat) :
    ([PAYLOAD_TYPE_TEXT] ++ u32le n ++ data).drop 5 = data :=
  List.drop_left' rfl

theorem header_length (n : Nat) (data : List Nat) :
    ([PAYLOAD_TYPE_TEXT] ++ u32le n ++ data).length = 5 + data.length := by
  simp [u32le]
  omega

/-- C1 (amended): for every cover text without ZWC code points, every secret of
Unicode scalar values, and any compliant compression and password layers
(modelled as the external collaborators they are, assumed to round-trip and to
produce fewer than 2^32 payload bytes), decoding an encoded text returns the
secret exactly and the visible text equal to the trimmed cover. -/
theorem claim_C1_text_roundtrip
    (compressFn encryptFn : List Nat → List Nat)
    (decryptFn decompressFn : List Nat → Except String (List Nat))
    (usePassword : Bool) (cover secret : List Nat)
    (hcov : ∀ c ∈ cover, isZWC c = false)
    (hsec : ∀ c ∈ secret, c < 1114112 ∧ ¬(55296 ≤ c ∧ c < 57344))
    (hlen : (if usePassword then encryptFn (compressFn (utf8Encode secret))
        else compressFn (utf8Encode secret)).length < 4294967296)
    (hbytes : ∀ b ∈ (if usePassword then encryptFn (compressFn (utf8Encode secret))
        else compressFn (utf8Encode secret)), b < 256)
    (hdecrypt : usePassword = true →
        decryptFn (encryptFn (compressFn (utf8Encode secret)))
          = .ok (compressFn (utf8Encode secret)))
    (hdecompress : decompressFn (compressFn (utf8Encode secret)) = .ok (utf8Encode secret)) :
    decodeText decryptFn decompressFn usePassword
        (encodeText compressFn encryptFn usePassword cover secret)
      = .ok (jsTrim cover, some secret) := by
  obtain ⟨data, hdataeq⟩ : ∃ d, (if usePassword then encryptFn (compressFn (utf8Encode secret))
      else compressFn (utf8Encode secret)) = d := ⟨_, rfl⟩
  rw [hdataeq] at hlen hbytes
  have hstega : encodeText compressFn encryptFn usePassword cover secret
      = cover ++ (START_SENTINEL
          ++ (bytesToZWC ([PAYLOAD_TYPE_TEXT] ++ u32le data.length ++ data)
            ++ END_SENTINEL)) := by
    dsimp only [encodeText]
    rw [hdataeq]
    simp [List.append_assoc]
  have hZlen : (bytesToZWC ([PAYLOAD_TYPE_TEXT] ++ u32le data.length ++ data)).length
      = 4 * (5 + data.length) := by
    rw [bytesToZWC_length, header_length]
  have hidx : indexOfSub START_SENTINEL
      (cover ++ (START_SENTINEL
        ++ (bytesToZWC ([PAYLOAD_TYPE_TEXT] ++ u32le data.length ++ data)
          ++ END_SENTINEL))) = some cover.length :=
    indexOfSub_clean_cover cover _ hcov (startsWithL_append_self _ _)
  have hdrop : (cover ++ (START_SENTINEL
      ++ (bytesToZWC ([PAYLOAD_TYPE_TEXT] ++ u32le data.length ++ data)
        ++ END_SENTINEL))).drop (cover.length + START_SENTINEL.length)
      = bytesToZWC ([PAYLOAD_TYPE_TEXT] ++ u32le data.length ++ data) ++ END_SENTINEL := by
    rw [List.drop_append_eq_append_drop]
    rw [List.drop_eq_nil_of_le (by omega), List.nil_append]
    have h3 : cover.length + START_SENTINEL.length - cover.length = START_SENTINEL.length := by
      omega
    rw [h3]
    exact List.drop_left _ _
  have hall : extractZWCChars
      (bytesToZWC ([PAYLOAD_TYPE_TEXT] ++ u32le data.length ++ data) ++ END_SENTINEL)
      = bytesToZWC ([PAYLOAD_TYPE_TEXT] ++ u32le data.length ++ data) ++ END_SENTINEL := by
    apply extractZWCChars_all
    intro c hc
    rcases List.mem_append.mp hc with hc | hc
    · exact bytesToZWC_all_zwc _ c hc
    · have hE : ∀ x ∈ END_SENTINEL, isZWC x = true := by decide
      exact hE c hc
  have hvis : jsTrim (stripZWC (removeFirst END_SENTINEL (removeFirst START_SENTINEL
      (cover ++ (START_SENTINEL
        ++ (bytesToZWC ([PAYLOAD_TYPE_TEXT] ++ u32le data.length ++ data)
          ++ END_SENTINEL)))))) = jsTrim cover := by
    rw [stripZWC_removeFirst _ _ (by decide), stripZWC_removeFirst _ _ (by decide)]
    rw [stripZWC_append, stripZWC_append, stripZWC_append]
    rw [stripZWC_clean cover hcov]
    have hS : ∀ x ∈ START_SENTINEL, isZWC x = true := by decide
    have hE : ∀ x ∈ END_SENTINEL, isZWC x = true := by decide
    rw [stripZWC_all_zwc _ hS, stripZWC_all_zwc _ (bytesToZWC_all_zwc _),
      stripZWC_all_zwc _ hE]
    simp
  have hlenall : (bytesToZWC ([PAYLOAD_TYPE_TEXT] ++ u32le data.length ++ data)
      ++ END_SENTINEL).length = 4 * (5 + data.length) + 3 := by
    rw [List.length_append, hZlen]
    rfl
  have htake20 : (bytesToZWC ([PAYLOAD_TYPE_TEXT] ++ u32le data.length ++ data)
      ++ END_SENTINEL).take 20 = bytesToZWC ([PAYLOAD_TYPE_TEXT] ++ u32le data.length) := by
    rw [List.take_append_eq_append_take]
    rw [show (20 : Nat) - (bytesToZWC ([PAYLOAD_TYPE_TEXT] ++ u32le data.length
      ++ data)).length = 0 by omega]
    rw [List.take_zero, List.append_nil]
    rw [show (20 : Nat) = 4 * 5 from rfl, bytesToZWC_take]
    rw [header_take]
  have hheader : zwcToBytes ((bytesToZWC ([PAYLOAD_TYPE_TEXT] ++ u32le data.length ++ data)
      ++ END_SENTINEL).take 20) = .ok ([PAYLOAD_TYPE_TEXT] ++ u32le data.length) := by
    rw [htake20]
    apply zwcToBytes_bytesToZWC
    intro b hb
    rcases List.mem_append.mp hb with hb | hb
    · simp only [List.mem_singleton] at hb
      subst hb
      decide
    · exact u32le_bytes data.length b hb
  have hdl : readU32 (([PAYLOAD_TYPE_TEXT] ++ u32le data.length).drop 1) = data.length := by
    show readU32 (u32le data.length) = data.length
    exact readU32_u32le data.length hlen
  have htakeTot : (bytesToZWC ([PAYLOAD_TYPE_TEXT] ++ u32le data.length ++ data)
      ++ END_SENTINEL).take (20 + data.length * 4)
      = bytesToZWC ([PAYLOAD_TYPE_TEXT] ++ u32le data.length ++ data) := by
    have h20n : 20 + data.length * 4
        = (bytesToZWC ([PAYLOAD_TYPE_TEXT] ++ u32le data.length ++ data)).length := by
      rw [hZlen]; omega
    rw [h20n]
    exact List.take_left _ _
  have hdataZWC : (bytesToZWC ([PAYLOAD_TYPE_TEXT] ++ u32le data.length ++ data)).drop 20
      = bytesToZWC data := by
    rw [show (20 : Nat) = 4 * 5 from rfl, bytesToZWC_drop, header_drop]
  have hplain : (if usePassword then decryptFn data else .ok data)
      = Except.ok (compressFn (utf8Encode secret)) := by
    cases usePassword with
    | false =>
      simp only [Bool.false_eq_true, if_false]
      rw [if_neg (by simp)] at hdataeq
      rw [hdataeq]
    | true =>
      simp only [if_true]
      rw [if_pos rfl] at hdataeq
      rw [← hdataeq]
      exact hdecrypt rfl
  rw [hstega]
  simp only [decodeText]
  rw [hidx]
  dsimp only
  rw [hdrop, hall, hvis]
  rw [if_neg (by rw [hlenall]; omega)]
  rw [hheader]
  dsimp only
  rw [hdl]
  rw [if_neg (by simp [PAYLOAD_TYPE_TEXT])]
  rw [if_neg (by rw [hlenall]; omega)]
  rw [htakeTot, hdataZWC]
  rw [zwcToBytes_bytesToZWC data hbytes]
  dsimp only
  rw [hplain]
  dsimp only
  rw [hdecompress]
  dsimp only
  rw [utf8Decode_utf8Encode secret hsec]

set_option maxRecDepth 100000 in
/-- Counterexample to C1 as stated: with the cover `START ++ [ZWSP]` (four ZWC
code points, well within the configured maxima) and secret `"A"`, the stray
cover ZWSP lands in the ZWC stream right after the first START occurrence,
shifting the header digits; decoding fails with a payload type mismatch
instead of returning the secret.  The failure happens before decompression,
so it holds for every choice of the external compression layer (instantiated
here with the identity). -/
theorem claim_C1_counterexample :
    decodeText Except.ok Except.ok false
        (encodeText id id false [8203, 8204, 8203, 8203] [65])
      = .error "payload type mismatch" ∧
      ([8203, 8204, 8203, 8203] : List Nat).length ≤ 100000 ∧
      ([65] : List Nat).length ≤ 50000 := by
  refine ⟨by rfl, by decide, by decide⟩

set_option maxRecDepth 100000 in
/-- Witness for the amended C1 at the cover `"hi "` and secret `"AB"` with the
identity as compression layer and no password: decoding recovers the secret
and the trimmed cover. -/
theorem claim_C1_witness :
    decodeText Except.ok Except.ok false (encodeText id id false [104, 105, 32] [65, 66])
      = .ok ([104, 105], some [65, 66]) := by
  have h := claim_C1_text_roundtrip id id Except.ok Except.ok false [104, 105, 32] [65, 66]
    (by decide) (by decide) (by decide) (by decide)
    (by intro hp; exact absurd hp (by decide)) rfl
  have hj : jsTrim [104, 105, 32] = [104, 105] := rfl
  rw [hj] at h
  exact h

end Stega
